import Mathlib

/-!
# Sprite-Editor: the raster surface (`src/canvas.cpp`)

A shallow embedding of `Canvas` (the drawing surface of the sprite editor) and
proofs about its brush rasterisation, its colour history and its drawing gate.

* C++ `int` values are `Int`; every place where the C++ arithmetic is undefined
  (conversion of an out-of-range `double` to `int`, division by zero, signed
  overflow) makes the embedded function return `none`.
* C++ `double` values are modelled exactly (`Double`): a finite value is a sign,
  a mantissa and a binary exponent, and every operation rounds to 53 significant
  bits, ties to even, as IEEE-754 binary64 does.
* Qt classes are modelled by what `canvas.cpp` uses of them.
-/

namespace SpriteEditor

/-! ## C++ `int` -/

/-- Smallest value of a 32-bit C++ `int`. -/
def INT_MIN : Int := -2147483648

/-- Largest value of a 32-bit C++ `int`. -/
def INT_MAX : Int := 2147483647

/-- Whether an integer is the value of some C++ `int`. -/
def inIntRange (v : Int) : Bool := decide (INT_MIN ≤ v) && decide (v ≤ INT_MAX)

/-- C++ `a / b` on `int`: the quotient rounded toward zero; undefined for a zero
divisor and when the quotient is not an `int` (`INT_MIN / -1`). -/
def intDiv (a b : Int) : Option Int :=
  if b = 0 then none
  else if inIntRange (Int.tdiv a b) then some (Int.tdiv a b)
  else none

/-- C++ `a * b` on `int`: undefined when the product is not an `int`. -/
def intMul (a b : Int) : Option Int :=
  if inIntRange (a * b) then some (a * b) else none

/-! ## C++ `double` -/

/-- An IEEE-754 binary64 value: `finite neg man exp` is `(-1)^neg * man * 2^exp`;
the exponent is not bounded, which is exact as long as no operation overflows or
underflows (operands that come from `int` values stay within `2^-62 .. 2^62`). -/
inductive Double where
  | finite (neg : Bool) (man : Nat) (exp : Int)
  | inf (neg : Bool)
  | nan
deriving DecidableEq, Repr

/-- Number of binary digits of a natural number (`0` for `0`), with the
recursion bounded by `fuel`. -/
def bitLenAux : Nat → Nat → Nat
  | 0, _ => 0
  | fuel + 1, n => if n = 0 then 0 else bitLenAux fuel (n / 2) + 1

/-- Number of binary digits of a natural number (`0` for `0`). -/
def bitLen (n : Nat) : Nat := bitLenAux n n

/-- The binary exponent of the double nearest to `n / d` (for `n`, `d` not
zero): the `e` with `2^52 ≤ n / (d * 2^e) < 2^53`. It is
`bitLen n - bitLen d - 52` or one less. -/
def binaryExp (n d : Nat) : Int :=
  let e0 : Int := (bitLen n : Int) - (bitLen d : Int) - 52
  if n * 2 ^ (-e0).toNat < 2 ^ 52 * (d * 2 ^ e0.toNat) then e0 - 1 else e0

/-- The integer nearest to `N / D`, the even one on a tie. -/
def nearestEven (N D : Nat) : Nat :=
  let q : Nat := N / D
  let r : Nat := N % D
  if 2 * r < D then q
  else if D < 2 * r then q + 1
  else if q % 2 = 0 then q
  else q + 1

/-- The quotient `n / d` (with `d ≠ 0`) rounded to 53 significant bits, ties to
even, with sign `neg`: the mantissa is `n / (d * 2^e)` rounded to the nearest
integer, where `e` is the binary exponent of the quotient. -/
def roundNE (neg : Bool) (n d : Nat) : Double :=
  if n = 0 then .finite neg 0 0
  else
    let e : Int := binaryExp n d
    .finite neg (nearestEven (n * 2 ^ (-e).toNat) (d * 2 ^ e.toNat)) e

/-- Conversion `(double) x` of an integer (exact when `|x| < 2^53`, so for every
`int`). -/
def Double.ofInt (x : Int) : Double := roundNE (decide (x < 0)) x.natAbs 1

/-- IEEE-754 division `a / b` on `double`. -/
def Double.div : Double → Double → Double
  | .nan, _ => .nan
  | _, .nan => .nan
  | .inf _, .inf _ => .nan
  | .inf s, .finite t _ _ => .inf (xor s t)
  | .finite s _ _, .inf t => .finite (xor s t) 0 0
  | .finite s m e, .finite t n f =>
    if n = 0 then
      if m = 0 then .nan else .inf (xor s t)
    else
      match roundNE (xor s t) m n with
      | .finite r m2 e2 => .finite r m2 (e2 + e - f)
      | other => other

/-- The integer part of a finite double, rounded toward zero (`none` for an
infinity or a NaN). -/
def Double.trunc : Double → Option Int
  | .finite neg m e =>
    let t : Nat := if 0 ≤ e then m * 2 ^ e.toNat else m / 2 ^ (-e).toNat
    some (if neg then -(t : Int) else (t : Int))
  | _ => none

/-- Conversion `(int) a` of a double: the integer part, undefined when that is
not an `int`. -/
def Double.toInt (a : Double) : Option Int :=
  match a.trunc with
  | some v => if inIntRange v then some v else none
  | none => none

/-- The real value of a finite double (`0` for an infinity or a NaN). -/
def Double.toRat : Double → ℚ
  | .finite neg m e => (if neg then -1 else 1) * (m : ℚ) * (2 : ℚ) ^ e
  | _ => 0

/-! ## Brush rasterisation (`Canvas::drawLineTo`) -/

/-- The double `endPoint.x() / xScaleFactor` of `Canvas::drawLineTo` with
`xScaleFactor = this->width() / (double) image.width()`: a pointer coordinate
taken from display space to buffer space. -/
def bufferCoord (coord displaySize imageSize : Int) : Double :=
  Double.div (Double.ofInt coord)
    (Double.div (Double.ofInt displaySize) (Double.ofInt imageSize))

/-- One axis of the block origin of `Canvas::drawLineTo`:
`brushSize * ((int)(endPoint.x() / xScaleFactor) / brushSize)`. -/
def cellCoord (brushSize coord displaySize imageSize : Int) : Option Int :=
  (bufferCoord coord displaySize imageSize).toInt.bind fun t =>
    (intDiv t brushSize).bind fun q => intMul brushSize q

/-! ## Qt values used by `canvas.cpp` -/

/-- The text `QColor::name()` returns, `#RRGGBB`, kept as its three channel
values. -/
abbrev ColorName := Nat × Nat × Nat

/-- A `QColor`: red, green, blue and alpha channels. -/
structure QColor where
  red : Nat
  green : Nat
  blue : Nat
  alpha : Nat
deriving DecidableEq, Repr

/-- `QColor::name()`: the colour as `#RRGGBB`; the alpha channel is not part of
it. -/
def QColor.name (c : QColor) : ColorName := (c.red, c.green, c.blue)

/-- A `QPoint`. -/
structure QPoint where
  x : Int
  y : Int
deriving DecidableEq, Repr

/-- One `QPainter::fillRect(x, y, w, h, color)` call, with whether the painter
was in `CompositionMode_Clear` (the eraser) when it was made. -/
structure FillRect where
  x : Int
  y : Int
  w : Int
  h : Int
  color : QColor
  clear : Bool
deriving DecidableEq, Repr

/-- A `QImage`, the pixel buffer of one frame: its size and its content, given
as the fills painted on it so far, most recent first. -/
structure QImage where
  width : Int
  height : Int
  fills : List FillRect
deriving DecidableEq, Repr

/-- `QPainter(&image).fillRect(x, y, w, h, color)`. -/
def QImage.fillRect (image : QImage) (x y w h : Int) (color : QColor) (clear : Bool) :
    QImage :=
  { image with fills := ⟨x, y, w, h, color, clear⟩ :: image.fills }

/-- The values of `Qt::MouseButton` that matter here. -/
inductive MouseButton where
  | NoButton
  | LeftButton
  | RightButton
  | MiddleButton
deriving DecidableEq, Repr

/-- A `QMouseEvent`: `button()` is the button that caused the event, `leftHeld`
is `buttons() & Qt::LeftButton`, `pos()` is the pointer position in the widget. -/
structure QMouseEvent where
  button : MouseButton
  leftHeld : Bool
  pos : QPoint
deriving DecidableEq, Repr

/-- The signals `Canvas` emits; a style sheet `"background-color:" + name` is
kept as the colour name. -/
inductive Signal where
  | updateModelFrames (image : QImage)
  | newCurrentColor (style : ColorName)
  | firstHistoryChanged (style : ColorName)
  | secondHistoryChanged (style : ColorName)
  | thirdHistoryChanged (style : ColorName)
  | fourthHistoryChanged (style : ColorName)
deriving DecidableEq, Repr

/-! ## The canvas -/

/-- Modelled from the spec: the class declaration of `Canvas` (`canvas.h`) is
missing; the state is the members `canvas.cpp` reads and writes, that is the
BrushState and ColorHistory of the spec (colour, block size, eraser flag,
drawing flag, last pointer position; ordered history and membership set), the
pixel buffer, the widget size and the animation gate. `emitted` lists the
signals emitted so far, oldest first. -/
structure Canvas where
  width : Int
  height : Int
  image : QImage
  brushColor : QColor
  brushSize : Int
  eraseOn : Bool
  drawing : Bool
  animationPlaying : Bool
  mousePos : QPoint
  colorHistory : List QColor
  colorsSet : Finset ColorName
  emitted : List Signal
deriving DecidableEq

/-- `Canvas::drawLineTo`: fills the brush block the pointer falls in and records
the pointer position (`update()` only schedules a repaint). -/
def drawLineTo (s : Canvas) (endPoint : QPoint) : Option Canvas :=
  (cellCoord s.brushSize endPoint.x s.width s.image.width).bind fun xCoord =>
    (cellCoord s.brushSize endPoint.y s.height s.image.height).bind fun yCoord =>
      some { s with
        image := s.image.fillRect xCoord yCoord s.brushSize s.brushSize s.brushColor s.eraseOn
        mousePos := endPoint }

/-- `Canvas::mousePressEvent`. -/
def mousePressEvent (s : Canvas) (event : QMouseEvent) : Canvas :=
  if event.button = MouseButton.LeftButton ∧ s.animationPlaying = false then
    { s with
      mousePos := event.pos
      drawing := true
      emitted := s.emitted ++ [Signal.updateModelFrames s.image] }
  else s

/-- `Canvas::mouseMoveEvent`. -/
def mouseMoveEvent (s : Canvas) (event : QMouseEvent) : Option Canvas :=
  if event.leftHeld = true ∧ s.drawing = true ∧ s.animationPlaying = false then
    (drawLineTo s event.pos).bind fun s1 =>
      some { s1 with emitted := s1.emitted ++ [Signal.updateModelFrames s1.image] }
  else some s

/-- `Canvas::mouseReleaseEvent`. -/
def mouseReleaseEvent (s : Canvas) (event : QMouseEvent) : Option Canvas :=
  if event.button = MouseButton.LeftButton ∧ s.drawing = true ∧ s.animationPlaying = false then
    (drawLineTo s event.pos).bind fun s1 =>
      some { s1 with
        drawing := false
        emitted := s1.emitted ++ [Signal.updateModelFrames s1.image] }
  else some s

/-- `Canvas::brushSizeChanged`. -/
def brushSizeChanged (s : Canvas) (newBrushSize : Int) : Canvas :=
  { s with brushSize := newBrushSize }

/-- `Canvas::eraseSelected`. -/
def eraseSelected (s : Canvas) : Canvas := { s with eraseOn := true }

/-- `Canvas::brushSelected`. -/
def brushSelected (s : Canvas) : Canvas := { s with eraseOn := false }

/-- `Canvas::recieveCanDraw`. -/
def recieveCanDraw (s : Canvas) (value : Bool) : Canvas :=
  { s with animationPlaying := value }

/-- The signal the loop at the end of `Canvas::colorDialogSelected` emits for the
history entry at index `i`: one per slot `0..3`, none beyond. -/
def historySignal (i : Nat) (c : QColor) : Option Signal :=
  match i with
  | 0 => some (Signal.firstHistoryChanged c.name)
  | 1 => some (Signal.secondHistoryChanged c.name)
  | 2 => some (Signal.thirdHistoryChanged c.name)
  | 3 => some (Signal.fourthHistoryChanged c.name)
  | _ => none

/-- The signals of the loop `for (i = 0; i < colorHistory.size(); i++)`. -/
def historySignals (colorHistory : List QColor) : List Signal :=
  colorHistory.enum.filterMap fun ic => historySignal ic.1 ic.2

/-- The eviction step of `Canvas::colorDialogSelected`:
`if (colorHistory.size() > 4)` the last entry leaves the list and its name
leaves the set. -/
def evictOldest (s : Canvas) : Canvas :=
  if 4 < s.colorHistory.length then
    match s.colorHistory.getLast? with
    | some removal =>
      { s with
        colorHistory := s.colorHistory.dropLast
        colorsSet := s.colorsSet.erase removal.name }
    | none => s
  else s

/-- The insertion step of `Canvas::colorDialogSelected`:
`if (!colorsSet.count(colorSelected.name()))` the colour goes to the front of
the list and its name into the set. -/
def insertNew (s : Canvas) (colorSelected : QColor) : Canvas :=
  if colorSelected.name ∉ s.colorsSet then
    { s with
      colorHistory := colorSelected :: s.colorHistory
      colorsSet := insert colorSelected.name s.colorsSet }
  else s

/-- `Canvas::colorDialogSelected`, with the colour `QColorDialog::getColor`
returned as the argument `colorSelected`. -/
def colorDialogSelected (s : Canvas) (colorSelected : QColor) : Canvas :=
  let s1 := { s with brushColor := colorSelected, eraseOn := false }
  let s2 := insertNew (evictOldest s1) colorSelected
  { s2 with
    emitted := s2.emitted ++ [Signal.newCurrentColor colorSelected.name]
      ++ historySignals s2.colorHistory }

/-- `Canvas::firstHistorySelcted`. -/
def firstHistorySelcted (s : Canvas) : Canvas :=
  if h : 1 ≤ s.colorHistory.length then
    { s with
      brushColor := s.colorHistory[0]
      emitted := s.emitted ++ [Signal.newCurrentColor s.colorHistory[0].name]
      eraseOn := false }
  else s

/-- `Canvas::secondHistorySelcted`. -/
def secondHistorySelcted (s : Canvas) : Canvas :=
  if h : 2 ≤ s.colorHistory.length then
    { s with
      brushColor := s.colorHistory[1]
      emitted := s.emitted ++ [Signal.newCurrentColor s.colorHistory[1].name]
      eraseOn := false }
  else s

/-- `Canvas::thirdHistorySelcted`. -/
def thirdHistorySelcted (s : Canvas) : Canvas :=
  if h : 3 ≤ s.colorHistory.length then
    { s with
      brushColor := s.colorHistory[2]
      emitted := s.emitted ++ [Signal.newCurrentColor s.colorHistory[2].name]
      eraseOn := false }
  else s

/-- `Canvas::fourthHistorySelcted`. -/
def fourthHistorySelcted (s : Canvas) : Canvas :=
  if h : 4 ≤ s.colorHistory.length then
    { s with
      brushColor := s.colorHistory[3]
      emitted := s.emitted ++ [Signal.newCurrentColor s.colorHistory[3].name]
      eraseOn := false }
  else s

/-- `Canvas::nextFrameChanged`. -/
def nextFrameChanged (s : Canvas) (frame : QImage) : Canvas := { s with image := frame }

/-- `Canvas::prevFrameChanged`. -/
def prevFrameChanged (s : Canvas) (frame : QImage) : Canvas := { s with image := frame }

/-- The four history buttons by slot number: slot `0` is
`Canvas::firstHistorySelcted`, slot `3` is `Canvas::fourthHistorySelcted`. -/
def historySelcted (s : Canvas) (slot : Fin 4) : Canvas :=
  match slot with
  | 0 => firstHistorySelcted s
  | 1 => secondHistorySelcted s
  | 2 => thirdHistorySelcted s
  | 3 => fourthHistorySelcted s

/-- The canvas after the colour dialog returned the colours `picks`, one call of
`Canvas::colorDialogSelected` each, in that order. -/
def pickColors (s : Canvas) (picks : List QColor) : Canvas :=
  picks.foldl colorDialogSelected s

/-! ## Concrete states used in the examples -/

/-- A 100x100 buffer with nothing painted on it. -/
def blankImage : QImage := { width := 100, height := 100, fills := [] }

/-- A canvas shown at 500x500 over a 100x100 buffer, brush size 10, black brush,
nothing drawn, no colour picked yet. -/
def blankCanvas : Canvas :=
  { width := 500
    height := 500
    image := blankImage
    brushColor := ⟨0, 0, 0, 255⟩
    brushSize := 10
    eraseOn := false
    drawing := false
    animationPlaying := false
    mousePos := ⟨0, 0⟩
    colorHistory := []
    colorsSet := ∅
    emitted := [] }

/-- Colour A of the examples. -/
def colorA : QColor := ⟨255, 0, 0, 255⟩

/-- Colour B of the examples. -/
def colorB : QColor := ⟨0, 255, 0, 255⟩

/-- Colour C of the examples. -/
def colorC : QColor := ⟨0, 0, 255, 255⟩

/-- Colour D of the examples. -/
def colorD : QColor := ⟨255, 255, 0, 255⟩

/-- Colour E of the examples. -/
def colorE : QColor := ⟨0, 255, 255, 255⟩

/-- The canvas after picking A, B, C, D, E in that order from an empty history. -/
def fivePicked : Canvas := pickColors blankCanvas [colorA, colorB, colorC, colorD, colorE]

/-- A left-button press at display point (115, 235), which is buffer point
(23, 47) of `blankCanvas`. -/
def leftPress : QMouseEvent :=
  { button := MouseButton.LeftButton, leftHeld := true, pos := ⟨115, 235⟩ }

/-- A move to display point (115, 235) with the left button held. -/
def leftMove : QMouseEvent :=
  { button := MouseButton.NoButton, leftHeld := true, pos := ⟨115, 235⟩ }

/-- The colour-history invariant: the names of the history's entries are
pairwise distinct, and the membership set holds exactly those names. -/
def HistoryInv (s : Canvas) : Prop :=
  (s.colorHistory.map QColor.name).Nodup ∧
    ∀ k : ColorName, k ∈ s.colorsSet ↔ k ∈ s.colorHistory.map QColor.name

/-! ## Colour history: lemmas -/

theorem evictOldest_inv (s : Canvas) (h : HistoryInv s) : HistoryInv (evictOldest s) := by
  unfold evictOldest
  split
  · split
    · next removal hlast =>
      have hsplit : s.colorHistory.dropLast ++ [removal] = s.colorHistory :=
        List.dropLast_append_getLast? removal (by simp [hlast])
      obtain ⟨hnd, hset⟩ := h
      rw [← hsplit, List.map_append, List.nodup_append] at hnd
      obtain ⟨hinit, -, hdisj⟩ := hnd
      have hnotin : removal.name ∉ s.colorHistory.dropLast.map QColor.name := fun hin =>
        hdisj hin (by simp)
      refine ⟨hinit, fun k => ?_⟩
      show k ∈ s.colorsSet.erase removal.name ↔ k ∈ s.colorHistory.dropLast.map QColor.name
      rw [Finset.mem_erase, hset k]
      nth_rewrite 1 [← hsplit]
      rw [List.map_append, List.mem_append]
      constructor
      · rintro ⟨hne, hin | hin⟩
        · exact hin
        · exact absurd (by simpa using hin) hne
      · intro hin
        exact ⟨fun heq => hnotin (heq ▸ hin), Or.inl hin⟩
    · exact h
  · exact h

theorem insertNew_inv (s : Canvas) (c : QColor) (h : HistoryInv s) :
    HistoryInv (insertNew s c) := by
  unfold insertNew
  split
  · next hnew =>
    obtain ⟨hnd, hset⟩ := h
    refine ⟨?_, fun k => ?_⟩
    · show (List.map QColor.name (c :: s.colorHistory)).Nodup
      rw [List.map_cons, List.nodup_cons]
      exact ⟨fun hin => hnew ((hset _).2 hin), hnd⟩
    · show k ∈ insert c.name s.colorsSet ↔ k ∈ List.map QColor.name (c :: s.colorHistory)
      rw [Finset.mem_insert, List.map_cons, List.mem_cons, hset k]
  · exact h

theorem colorDialogSelected_inv (s : Canvas) (c : QColor) (h : HistoryInv s) :
    HistoryInv (colorDialogSelected s c) := by
  have h1 : HistoryInv { s with brushColor := c, eraseOn := false } := h
  exact insertNew_inv _ c (evictOldest_inv _ h1)

theorem pickColors_inv (picks : List QColor) :
    ∀ s : Canvas, HistoryInv s → HistoryInv (pickColors s picks) := by
  induction picks with
  | nil => intro s h; exact h
  | cons c rest ih =>
    intro s h
    exact ih (colorDialogSelected s c) (colorDialogSelected_inv s c h)

theorem evictOldest_length (s : Canvas) (h : s.colorHistory.length ≤ 5) :
    (evictOldest s).colorHistory.length ≤ 4 := by
  unfold evictOldest
  split
  · split
    · show s.colorHistory.dropLast.length ≤ 4
      rw [List.length_dropLast]
      omega
    · next hlast =>
      rw [List.getLast?_eq_none_iff] at hlast
      simp [hlast]
  · omega

theorem insertNew_length (s : Canvas) (c : QColor) :
    (insertNew s c).colorHistory.length ≤ s.colorHistory.length + 1 := by
  unfold insertNew
  split
  · exact le_of_eq (List.length_cons _ _)
  · omega

/-- The bound the code does keep: after any sequence of picks from a history of
at most five entries the history has at most five entries. -/
theorem pickColors_length_le_five (picks : List QColor) :
    ∀ s : Canvas, s.colorHistory.length ≤ 5 →
      (pickColors s picks).colorHistory.length ≤ 5 := by
  induction picks with
  | nil => intro s h; exact h
  | cons c rest ih =>
    intro s h
    refine ih (colorDialogSelected s c) ?_
    have h1 : (evictOldest { s with brushColor := c, eraseOn := false }).colorHistory.length ≤ 4 :=
      evictOldest_length _ h
    have h2 := insertNew_length (evictOldest { s with brushColor := c, eraseOn := false }) c
    show (insertNew (evictOldest { s with brushColor := c, eraseOn := false }) c).colorHistory.length ≤ 5
    omega

/-- What the code does on a full palette of four: picking a colour that is not a
member evicts nothing, the new colour is put in front of all four entries. -/
theorem pick_new_at_four (s : Canvas) (c : QColor) (hlen : s.colorHistory.length = 4)
    (hnew : c.name ∉ s.colorsSet) :
    (colorDialogSelected s c).colorHistory = c :: s.colorHistory ∧
      (colorDialogSelected s c).colorsSet = insert c.name s.colorsSet := by
  have hev : evictOldest { s with brushColor := c, eraseOn := false }
      = { s with brushColor := c, eraseOn := false } := by
    unfold evictOldest
    rw [if_neg (by simp [hlen])]
  have hins : insertNew { s with brushColor := c, eraseOn := false } c
      = { s with
          brushColor := c
          eraseOn := false
          colorHistory := c :: s.colorHistory
          colorsSet := insert c.name s.colorsSet } := by
    unfold insertNew
    rw [if_pos (by simpa using hnew)]
  unfold colorDialogSelected
  simp only [hev, hins, and_self]

/-! ## Colour history: the claims -/

/-- C3: the history is not bounded by 4. Picking five pairwise distinct colours
from an empty history leaves five entries in the ordered history, because
`Canvas::colorDialogSelected` evicts only when the history holds more than four
entries. -/
theorem colorHistory_reaches_five :
    blankCanvas.colorHistory = [] ∧ blankCanvas.colorsSet = ∅ ∧
      fivePicked.colorHistory.length = 5 ∧ ¬ fivePicked.colorHistory.length ≤ 4 := by
  decide

/-- C4: picking A, B, C, D, E from an empty history leaves the ordered history
`[E, D, C, B, A]` and the membership set `{A, B, C, D, E}`: the fifth pick evicts
nothing, so the result is not `[E, D, C, B]` with set `{B, C, D, E}`. -/
theorem five_picks_keep_oldest :
    fivePicked.colorHistory = [colorE, colorD, colorC, colorB, colorA] ∧
      fivePicked.colorsSet =
        {colorA.name, colorB.name, colorC.name, colorD.name, colorE.name} ∧
      fivePicked.colorHistory ≠ [colorE, colorD, colorC, colorB] ∧
      fivePicked.colorsSet ≠ {colorB.name, colorC.name, colorD.name, colorE.name} := by
  decide

/-- C5: in every state reached from an empty colour history by any sequence of
`Canvas::colorDialogSelected` calls, the names (keys) of the history's entries
are pairwise distinct, so no colour occurs twice. -/
theorem colorHistory_nodup (s : Canvas) (picks : List QColor)
    (hlist : s.colorHistory = []) (hset : s.colorsSet = ∅) :
    ((pickColors s picks).colorHistory.map QColor.name).Nodup ∧
      (pickColors s picks).colorHistory.Nodup := by
  have h0 : HistoryInv s := by
    refine ⟨by simp [hlist], fun k => ?_⟩
    simp [hlist, hset]
  have h := (pickColors_inv picks s h0).1
  exact ⟨h, List.Nodup.of_map _ h⟩

/-- Witness for C5: the picks A, B, A, C from the empty history of `blankCanvas`. -/
theorem colorHistory_nodup_witness :
    blankCanvas.colorHistory = [] ∧ blankCanvas.colorsSet = ∅ ∧
      ((pickColors blankCanvas [colorA, colorB, colorA, colorC]).colorHistory.map
          QColor.name).Nodup ∧
      (pickColors blankCanvas [colorA, colorB, colorA, colorC]).colorHistory.Nodup :=
  ⟨rfl, rfl, colorHistory_nodup blankCanvas [colorA, colorB, colorA, colorC] rfl rfl⟩

/-- C10: for every slot in `{0, 1, 2, 3}` and every state, if the history has at
least `slot + 1` entries the history button of that slot sets the brush colour
to the history entry at index `slot` and the eraser flag to false (and emits the
new current colour); otherwise it changes nothing. In both cases the ordered
history and the membership set are unchanged. -/
theorem historySelcted_spec (s : Canvas) (slot : Fin 4) :
    (∀ h : slot.val < s.colorHistory.length,
        historySelcted s slot =
          { s with
            brushColor := s.colorHistory[slot.val]
            eraseOn := false
            emitted := s.emitted ++ [Signal.newCurrentColor s.colorHistory[slot.val].name] }) ∧
      (s.colorHistory.length ≤ slot.val → historySelcted s slot = s) ∧
      (historySelcted s slot).colorHistory = s.colorHistory ∧
      (historySelcted s slot).colorsSet = s.colorsSet := by
  fin_cases slot
  · show (∀ h : 0 < s.colorHistory.length, firstHistorySelcted s = _) ∧
      (s.colorHistory.length ≤ 0 → firstHistorySelcted s = s) ∧
      (firstHistorySelcted s).colorHistory = _ ∧ (firstHistorySelcted s).colorsSet = _
    unfold firstHistorySelcted
    by_cases h : 1 ≤ s.colorHistory.length
    · rw [dif_pos h]
      exact ⟨fun _ => rfl, fun h2 => by omega, rfl, rfl⟩
    · rw [dif_neg h]
      exact ⟨fun h2 => by omega, fun _ => rfl, rfl, rfl⟩
  · show (∀ h : 1 < s.colorHistory.length, secondHistorySelcted s = _) ∧
      (s.colorHistory.length ≤ 1 → secondHistorySelcted s = s) ∧
      (secondHistorySelcted s).colorHistory = _ ∧ (secondHistorySelcted s).colorsSet = _
    unfold secondHistorySelcted
    by_cases h : 2 ≤ s.colorHistory.length
    · rw [dif_pos h]
      exact ⟨fun _ => rfl, fun h2 => by omega, rfl, rfl⟩
    · rw [dif_neg h]
      exact ⟨fun h2 => by omega, fun _ => rfl, rfl, rfl⟩
  · show (∀ h : 2 < s.colorHistory.length, thirdHistorySelcted s = _) ∧
      (s.colorHistory.length ≤ 2 → thirdHistorySelcted s = s) ∧
      (thirdHistorySelcted s).colorHistory = _ ∧ (thirdHistorySelcted s).colorsSet = _
    unfold thirdHistorySelcted
    by_cases h : 3 ≤ s.colorHistory.length
    · rw [dif_pos h]
      exact ⟨fun _ => rfl, fun h2 => by omega, rfl, rfl⟩
    · rw [dif_neg h]
      exact ⟨fun h2 => by omega, fun _ => rfl, rfl, rfl⟩
  · show (∀ h : 3 < s.colorHistory.length, fourthHistorySelcted s = _) ∧
      (s.colorHistory.length ≤ 3 → fourthHistorySelcted s = s) ∧
      (fourthHistorySelcted s).colorHistory = _ ∧ (fourthHistorySelcted s).colorsSet = _
    unfold fourthHistorySelcted
    by_cases h : 4 ≤ s.colorHistory.length
    · rw [dif_pos h]
      exact ⟨fun _ => rfl, fun h2 => by omega, rfl, rfl⟩
    · rw [dif_neg h]
      exact ⟨fun h2 => by omega, fun _ => rfl, rfl, rfl⟩

/-! ## The drawing gate and the brush size -/

/-- C9 (amended): `Canvas::recieveCanDraw(value)` stores `value` as
`animationPlaying`, and drawing is accepted exactly when that flag is false. For
every state: after `recieveCanDraw(true)` a press, move or release leaves the
whole state (pixel buffer and drawing flag included) unchanged; after
`recieveCanDraw(false)` a left-button press sets `drawing = true` and leaves the
pixel buffer as it is, and a following move with the left button held paints one
block, a `brushSize x brushSize` fill at the block origin `(xCoord, yCoord)`,
whenever that origin is defined, and is undefined exactly when it is not. -/
theorem drawing_gate (s : Canvas) :
    (∀ event : QMouseEvent,
        mousePressEvent (recieveCanDraw s true) event = recieveCanDraw s true ∧
        mouseMoveEvent (recieveCanDraw s true) event = some (recieveCanDraw s true) ∧
        mouseReleaseEvent (recieveCanDraw s true) event = some (recieveCanDraw s true)) ∧
      ∀ press : QMouseEvent, press.button = MouseButton.LeftButton →
        (mousePressEvent (recieveCanDraw s false) press).drawing = true ∧
        (mousePressEvent (recieveCanDraw s false) press).image = s.image ∧
        ∀ move : QMouseEvent, move.leftHeld = true →
          (mouseMoveEvent (mousePressEvent (recieveCanDraw s false) press) move = none ↔
            cellCoord s.brushSize move.pos.x s.width s.image.width = none ∨
              cellCoord s.brushSize move.pos.y s.height s.image.height = none) ∧
          ∀ xCoord yCoord : Int,
            cellCoord s.brushSize move.pos.x s.width s.image.width = some xCoord →
            cellCoord s.brushSize move.pos.y s.height s.image.height = some yCoord →
            ∃ s1 : Canvas,
              mouseMoveEvent (mousePressEvent (recieveCanDraw s false) press) move
                = some s1 ∧
              s1.image = s.image.fillRect xCoord yCoord s.brushSize s.brushSize
                s.brushColor s.eraseOn ∧
              s1.drawing = true := by
  refine ⟨fun event => ⟨?_, ?_, ?_⟩, fun press hpress => ⟨?_, ?_, fun move hmove => ⟨?_, ?_⟩⟩⟩
  · simp [mousePressEvent, recieveCanDraw]
  · simp [mouseMoveEvent, recieveCanDraw]
  · simp [mouseReleaseEvent, recieveCanDraw]
  · simp [mousePressEvent, recieveCanDraw, hpress]
  · simp [mousePressEvent, recieveCanDraw, hpress]
  · cases hx : cellCoord s.brushSize move.pos.x s.width s.image.width with
    | none =>
      simp [mouseMoveEvent, mousePressEvent, recieveCanDraw, drawLineTo, hpress, hmove, hx]
    | some xCoord =>
      cases hy : cellCoord s.brushSize move.pos.y s.height s.image.height with
      | none =>
        simp [mouseMoveEvent, mousePressEvent, recieveCanDraw, drawLineTo, hpress, hmove,
          hx, hy]
      | some yCoord =>
        simp [mouseMoveEvent, mousePressEvent, recieveCanDraw, drawLineTo, hpress, hmove,
          hx, hy]
  · intro xCoord yCoord hx hy
    simp [mouseMoveEvent, mousePressEvent, recieveCanDraw, drawLineTo, hpress, hmove, hx, hy]

/-- Witness for C9: a press and a move at display point (115, 235) on
`blankCanvas`, which paint the block at (20, 40). -/
theorem drawing_gate_witness :
    leftPress.button = MouseButton.LeftButton ∧ leftMove.leftHeld = true ∧
      cellCoord blankCanvas.brushSize leftMove.pos.x blankCanvas.width
        blankCanvas.image.width = some 20 ∧
      cellCoord blankCanvas.brushSize leftMove.pos.y blankCanvas.height
        blankCanvas.image.height = some 40 ∧
      (mousePressEvent (recieveCanDraw blankCanvas false) leftPress).drawing = true ∧
      ∃ s1 : Canvas,
        mouseMoveEvent (mousePressEvent (recieveCanDraw blankCanvas false) leftPress)
          leftMove = some s1 ∧
        s1.image = blankCanvas.image.fillRect 20 40 blankCanvas.brushSize
          blankCanvas.brushSize blankCanvas.brushColor blankCanvas.eraseOn ∧
        s1.drawing = true :=
  ⟨by decide, by decide, by decide, by decide,
    ((drawing_gate blankCanvas).2 leftPress (by decide)).1,
    (((drawing_gate blankCanvas).2 leftPress (by decide)).2.2 leftMove (by decide)).2
      20 40 (by decide) (by decide)⟩

/-- C9 (counterexample): after `recieveCanDraw(false)` a left-button press does
change the drawing flag (from false to true) and the following move does change
the pixel buffer; after `recieveCanDraw(true)` the press leaves `drawing` false
and the following move paints nothing. -/
theorem canDraw_polarity_reversed :
    (recieveCanDraw blankCanvas false).drawing = false ∧
      (mousePressEvent (recieveCanDraw blankCanvas false) leftPress).drawing = true ∧
      (mouseMoveEvent (mousePressEvent (recieveCanDraw blankCanvas false) leftPress)
          leftMove).map (fun s1 => s1.image.fills) =
        some [⟨20, 40, 10, 10, blankCanvas.brushColor, false⟩] ∧
      (mousePressEvent (recieveCanDraw blankCanvas true) leftPress).drawing = false ∧
      (mouseMoveEvent (mousePressEvent (recieveCanDraw blankCanvas true) leftPress)
          leftMove).map (fun s1 => s1.image) = some blankCanvas.image := by
  decide

/-! ## C++ `int` arithmetic: lemmas -/

theorem inIntRange_iff (v : Int) : inIntRange v = true ↔ INT_MIN ≤ v ∧ v ≤ INT_MAX := by
  simp [inIntRange]

/-- Truncated division by a positive divisor: the quotient has the sign of the
dividend, and `b * (t / b)` lies between `0` and `t`, less than `b` away from
`t`. -/
theorem tdiv_bounds (t b : Int) (hb : 1 ≤ b) :
    (0 ≤ t → 0 ≤ t.tdiv b ∧ t.tdiv b ≤ t ∧ 0 ≤ b * t.tdiv b ∧ b * t.tdiv b ≤ t ∧
        t < b * t.tdiv b + b) ∧
      (t ≤ 0 → t.tdiv b ≤ 0 ∧ t ≤ t.tdiv b ∧ b * t.tdiv b ≤ 0 ∧ t ≤ b * t.tdiv b ∧
        b * t.tdiv b < t + b) := by
  have hpos : ∀ a : Int, 0 ≤ a →
      0 ≤ a.tdiv b ∧ a.tdiv b ≤ a ∧ 0 ≤ b * a.tdiv b ∧ b * a.tdiv b ≤ a ∧
        a < b * a.tdiv b + b := by
    intro a ha
    have h1 := Int.tdiv_add_tmod a b
    have h2 := Int.tmod_nonneg b ha
    have h3 := Int.tmod_lt_of_pos a (show 0 < b by omega)
    have h4 : 0 ≤ a.tdiv b := Int.tdiv_nonneg ha (by omega)
    have h5 : a.tdiv b ≤ b * a.tdiv b := le_mul_of_one_le_left h4 hb
    refine ⟨h4, ?_, ?_, ?_, ?_⟩ <;> omega
  refine ⟨hpos t, fun ht => ?_⟩
  obtain ⟨h1, h2, h3, h4, h6⟩ := hpos (-t) (by omega)
  rw [Int.neg_tdiv] at h1 h2 h3 h4 h6
  have h5 : b * -t.tdiv b = -(b * t.tdiv b) := by ring
  rw [h5] at h3 h4 h6
  refine ⟨?_, ?_, ?_, ?_, ?_⟩ <;> omega

/-- With a brush size of at least 1 neither the division nor the multiplication
of the block origin can fail: the origin is defined as soon as the conversion to
`int` is. -/
theorem cellCoord_of_toInt (b p W w t : Int) (hb : 1 ≤ b)
    (ht : (bufferCoord p W w).toInt = some t) :
    cellCoord b p W w = some (b * t.tdiv b) := by
  have hrange : inIntRange t = true := by
    unfold Double.toInt at ht
    split at ht
    · split at ht
      · next h => simpa [← Option.some.inj ht] using h
      · exact absurd ht (by simp)
    · exact absurd ht (by simp)
  rw [inIntRange_iff] at hrange
  obtain ⟨hnonneg, hnonpos⟩ := tdiv_bounds t b hb
  have hq : inIntRange (t.tdiv b) = true := by
    rw [inIntRange_iff]
    rcases le_total 0 t with h | h
    · have := hnonneg h
      unfold INT_MIN INT_MAX at *
      omega
    · have := hnonpos h
      unfold INT_MIN INT_MAX at *
      omega
  have hm : inIntRange (b * t.tdiv b) = true := by
    rw [inIntRange_iff]
    rcases le_total 0 t with h | h
    · have := hnonneg h
      unfold INT_MIN INT_MAX at *
      omega
    · have := hnonpos h
      unfold INT_MIN INT_MAX at *
      omega
  have hb0 : b ≠ 0 := by omega
  simp [cellCoord, ht, intDiv, intMul, hb0, hq, hm]

theorem cellCoord_of_toInt_none (b p W w : Int)
    (ht : (bufferCoord p W w).toInt = none) : cellCoord b p W w = none := by
  simp [cellCoord, ht]

/-- With a brush size of zero the block origin is never defined. -/
theorem cellCoord_zero (p W w : Int) : cellCoord 0 p W w = none := by
  unfold cellCoord
  cases (bufferCoord p W w).toInt with
  | none => rfl
  | some t => simp [intDiv]

/-- C8 (amended): `Canvas::brushSizeChanged(n)` stores `n` as it is, for every
integer `n`: nothing is rejected or clamped, so the brush size in effect is at
least 1 exactly when `n` is. With `n = 0` every `Canvas::drawLineTo` divides by
zero (is undefined); with `n >= 1` the division by the brush size is defined for
every `int` dividend. -/
theorem brushSizeChanged_stores (s : Canvas) (n : Int) :
    (brushSizeChanged s n).brushSize = n ∧
      (1 ≤ (brushSizeChanged s n).brushSize ↔ 1 ≤ n) ∧
      (n = 0 → ∀ endPoint : QPoint, drawLineTo (brushSizeChanged s n) endPoint = none) ∧
      (1 ≤ n → ∀ t : Int, inIntRange t = true →
        intDiv t (brushSizeChanged s n).brushSize = some (t.tdiv n)) := by
  refine ⟨rfl, Iff.rfl, ?_, ?_⟩
  · intro hn endPoint
    subst hn
    show (cellCoord 0 endPoint.x s.width s.image.width).bind _ = none
    rw [cellCoord_zero]
    rfl
  · intro hn t ht
    show intDiv t n = some (t.tdiv n)
    rw [inIntRange_iff] at ht
    obtain ⟨hnonneg, hnonpos⟩ := tdiv_bounds t n hn
    have hq : inIntRange (t.tdiv n) = true := by
      rw [inIntRange_iff]
      rcases le_total 0 t with h | h
      · have := hnonneg h
        unfold INT_MIN INT_MAX at *
        omega
      · have := hnonpos h
        unfold INT_MIN INT_MAX at *
        omega
    have hn0 : n ≠ 0 := by omega
    simp [intDiv, hn0, hq]

/-- C8 (counterexample): `Canvas::brushSizeChanged(0)` leaves the brush size at
`0`, which is not at least 1, and the next `Canvas::drawLineTo` is undefined (a
division by zero); `Canvas::brushSizeChanged(-3)` leaves it at `-3`. -/
theorem brushSize_zero_accepted :
    (brushSizeChanged blankCanvas 0).brushSize = 0 ∧
      ¬ 1 ≤ (brushSizeChanged blankCanvas 0).brushSize ∧
      (bufferCoord 115 500 100).toInt = some 23 ∧
      intDiv 23 (brushSizeChanged blankCanvas 0).brushSize = none ∧
      drawLineTo (brushSizeChanged blankCanvas 0) ⟨115, 235⟩ = none ∧
      (brushSizeChanged blankCanvas (-3)).brushSize = -3 := by
  decide

/-! ## C++ `double` arithmetic: lemmas -/

theorem bitLenAux_zero (fuel : Nat) : bitLenAux fuel 0 = 0 := by
  cases fuel <;> simp [bitLenAux]

theorem bitLenAux_bounds (fuel : Nat) :
    ∀ n : Nat, n ≤ fuel →
      n < 2 ^ bitLenAux fuel n ∧ (n ≠ 0 → 2 ^ bitLenAux fuel n ≤ 2 * n) := by
  induction fuel with
  | zero =>
    intro n hn
    have h0 : n = 0 := by omega
    subst h0
    simp [bitLenAux]
  | succ fuel ih =>
    intro n hn
    by_cases h0 : n = 0
    · subst h0
      simp [bitLenAux]
    · have hhalf : n / 2 ≤ fuel := by omega
      obtain ⟨hlt, hle⟩ := ih (n / 2) hhalf
      have hstep : bitLenAux (fuel + 1) n = bitLenAux fuel (n / 2) + 1 := by
        simp [bitLenAux, h0]
      rw [hstep, pow_succ]
      refine ⟨by omega, fun _ => ?_⟩
      by_cases h1 : n / 2 = 0
      · rw [h1, bitLenAux_zero]
        omega
      · have := hle h1
        omega

/-- For a positive number, `2^(bitLen n - 1) ≤ n < 2^(bitLen n)`. -/
theorem bitLen_bounds (n : Nat) : n < 2 ^ bitLen n ∧ (n ≠ 0 → 2 ^ bitLen n ≤ 2 * n) :=
  bitLenAux_bounds n n (Nat.le_refl n)

theorem binaryExp_le (n d : Nat) : binaryExp n d ≤ (bitLen n : Int) - (bitLen d : Int) - 52 := by
  unfold binaryExp
  simp only []
  split <;> omega

theorem nearestEven_ge (N D : Nat) : N / D ≤ nearestEven N D := by
  unfold nearestEven
  simp only []
  split
  · omega
  · split
    · omega
    · split <;> omega

/-- Whenever the exponent is at most `bitLen n - bitLen d - 52`, the scaled
quotient `n / (d * 2^e)` is at least 1. -/
theorem scaled_quotient_pos (n d : Nat) (e : Int) (hn : n ≠ 0) (hd : d ≠ 0)
    (he : e ≤ (bitLen n : Int) - (bitLen d : Int) - 52) :
    1 ≤ n * 2 ^ (-e).toNat / (d * 2 ^ e.toNat) := by
  obtain ⟨-, hnlow⟩ := bitLen_bounds n
  obtain ⟨hdhigh, -⟩ := bitLen_bounds d
  have hnlow := hnlow hn
  have hDpos : 0 < d * 2 ^ e.toNat := Nat.mul_pos (Nat.pos_of_ne_zero hd) (by positivity)
  rw [Nat.le_div_iff_mul_le hDpos, one_mul]
  have hexp : bitLen d + e.toNat + 1 ≤ bitLen n + (-e).toNat := by omega
  have h1 : d * 2 ^ e.toNat ≤ 2 ^ bitLen d * 2 ^ e.toNat :=
    Nat.mul_le_mul_right _ (Nat.le_of_lt hdhigh)
  have h2 : 2 * (2 ^ bitLen d * 2 ^ e.toNat) ≤ 2 ^ bitLen n * 2 ^ (-e).toNat := by
    rw [← pow_add, ← pow_add, ← pow_succ']
    exact Nat.pow_le_pow_right (by norm_num) hexp
  have h3 : 2 ^ bitLen n * 2 ^ (-e).toNat ≤ 2 * n * 2 ^ (-e).toNat :=
    Nat.mul_le_mul_right _ hnlow
  have h4 : 2 * n * 2 ^ (-e).toNat = 2 * (n * 2 ^ (-e).toNat) := by ring
  omega

/-- Rounding yields a finite double of the requested sign, and a non-zero one
when the quotient is not zero. -/
theorem roundNE_finite (neg : Bool) (n d : Nat) :
    ∃ m e, roundNE neg n d = Double.finite neg m e ∧ (n ≠ 0 → d ≠ 0 → m ≠ 0) := by
  unfold roundNE
  by_cases hn : n = 0
  · exact ⟨0, 0, by simp [hn], fun h => absurd hn h⟩
  · rw [if_neg hn]
    refine ⟨_, _, rfl, fun _ hd => ?_⟩
    have hq := scaled_quotient_pos n d (binaryExp n d) hn hd (binaryExp_le n d)
    have hge := nearestEven_ge (n * 2 ^ (-binaryExp n d).toNat) (d * 2 ^ (binaryExp n d).toNat)
    omega

/-- The double of a non-zero integer is finite, not zero, and has its sign. -/
theorem ofInt_finite (x : Int) :
    ∃ m e, Double.ofInt x = Double.finite (decide (x < 0)) m e ∧ (x ≠ 0 → m ≠ 0) := by
  obtain ⟨m, e, h, hm⟩ := roundNE_finite (decide (x < 0)) x.natAbs 1
  exact ⟨m, e, h, fun hx => hm (by omega) (by norm_num)⟩

/-- Dividing a finite double by a finite non-zero double gives a finite double
whose sign is the exclusive or of the signs. -/
theorem div_finite (s t : Bool) (m n : Nat) (e f : Int) (hn : n ≠ 0) :
    ∃ m2 e2, Double.div (Double.finite s m e) (Double.finite t n f)
        = Double.finite (xor s t) m2 e2 ∧ (m ≠ 0 → m2 ≠ 0) := by
  obtain ⟨m2, e2, h, hm⟩ := roundNE_finite (xor s t) m n
  refine ⟨m2, e2 + e - f, ?_, fun h0 => hm h0 hn⟩
  simp [Double.div, hn, h]

/-- With positive display and buffer sizes the buffer coordinate is a finite
double with the sign of the pointer coordinate. -/
theorem bufferCoord_finite (p W w : Int) (hW : 0 < W) (hw : 0 < w) :
    ∃ m e, bufferCoord p W w = Double.finite (decide (p < 0)) m e := by
  obtain ⟨mW, eW, hWd, hmW⟩ := ofInt_finite W
  obtain ⟨mw, ew, hwd, hmw⟩ := ofInt_finite w
  obtain ⟨mp, ep, hpd, -⟩ := ofInt_finite p
  have hWneg : decide (W < 0) = false := by simp; omega
  have hwneg : decide (w < 0) = false := by simp; omega
  rw [hWneg] at hWd
  rw [hwneg] at hwd
  obtain ⟨ms, es, hs, hms⟩ := div_finite false false mW mw eW ew (hmw (by omega))
  obtain ⟨mb, eb, hb, -⟩ := div_finite (decide (p < 0)) (xor false false) mp ms ep es
    (hms (hmW (by omega)))
  refine ⟨mb, eb, ?_⟩
  unfold bufferCoord
  rw [hWd, hwd, hpd, hs, hb]
  simp

/-- The integer part of a non-negative finite double is the floor of its value. -/
theorem trunc_eq_floor (m : Nat) (e : Int) :
    ((if 0 ≤ e then m * 2 ^ e.toNat else m / 2 ^ (-e).toNat : Nat) : Int)
      = ⌊(Double.finite false m e).toRat⌋ := by
  have hval : (Double.finite false m e).toRat = (m : ℚ) * (2 : ℚ) ^ e := by
    simp [Double.toRat]
  have hnonneg : (0 : ℚ) ≤ (m : ℚ) * (2 : ℚ) ^ e := by positivity
  rw [hval, ← Int.natCast_floor_eq_floor hnonneg]
  congr 1
  by_cases he : 0 ≤ e
  · rw [if_pos he]
    have hexp : (2 : ℚ) ^ e = ((2 ^ e.toNat : Nat) : ℚ) := by
      rw [Nat.cast_pow, Nat.cast_ofNat, ← zpow_natCast, Int.toNat_of_nonneg he]
    rw [hexp, ← Nat.cast_mul, Nat.floor_natCast]
  · rw [if_neg he]
    have hexp : (2 : ℚ) ^ e = (((2 ^ (-e).toNat : Nat) : ℚ))⁻¹ := by
      rw [Nat.cast_pow, Nat.cast_ofNat, ← zpow_natCast, Int.toNat_of_nonneg (by omega),
        zpow_neg, inv_inv]
    rw [hexp, ← div_eq_mul_inv, Nat.floor_div_eq_div]

/-- Floor of a non-negative rational divided by a positive integer: the integer
quotient of the floor. -/
theorem floor_div_int (y : ℚ) (b : Int) (hy : 0 ≤ y) (hb : 1 ≤ b) :
    ⌊y / (b : ℚ)⌋ = ⌊y⌋ / b := by
  obtain ⟨n, rfl⟩ := Int.eq_ofNat_of_zero_le (show 0 ≤ b by omega)
  have hq : (0 : ℚ) ≤ y / ((n : Int) : ℚ) := by positivity
  rw [← Int.natCast_floor_eq_floor hq, ← Int.natCast_floor_eq_floor hy, Int.cast_natCast,
    Nat.floor_div_nat, Int.natCast_div]

/-- One axis of the block origin for a non-negative pointer coordinate. -/
theorem cellCoord_floor (b p W w : Int) (hb : 1 ≤ b) (hW : 0 < W) (hw : 0 < w)
    (hp : 0 ≤ p) :
    0 ≤ (bufferCoord p W w).toRat ∧
      cellCoord b p W w =
        if inIntRange ⌊(bufferCoord p W w).toRat⌋ = true then
          some (b * ⌊(bufferCoord p W w).toRat / (b : ℚ)⌋)
        else none := by
  obtain ⟨m, e, hfin⟩ := bufferCoord_finite p W w hW hw
  have hneg : decide (p < 0) = false := by simp; omega
  rw [hneg] at hfin
  have hnonneg : 0 ≤ (bufferCoord p W w).toRat := by
    rw [hfin]
    have hval : (Double.finite false m e).toRat = (m : ℚ) * (2 : ℚ) ^ e := by
      simp [Double.toRat]
    rw [hval]
    positivity
  refine ⟨hnonneg, ?_⟩
  have hfloor := trunc_eq_floor m e
  rw [← hfin] at hfloor
  have htrunc : (bufferCoord p W w).trunc = some ⌊(bufferCoord p W w).toRat⌋ := by
    rw [← hfloor, hfin]
    simp [Double.trunc]
  by_cases hr : inIntRange ⌊(bufferCoord p W w).toRat⌋ = true
  · rw [if_pos hr]
    have hto : (bufferCoord p W w).toInt = some ⌊(bufferCoord p W w).toRat⌋ := by
      simp [Double.toInt, htrunc, hr]
    rw [cellCoord_of_toInt b p W w _ hb hto, floor_div_int _ b hnonneg hb,
      Int.tdiv_eq_ediv (Int.floor_nonneg.2 hnonneg) (by omega)]
  · rw [if_neg hr]
    have hto : (bufferCoord p W w).toInt = none := by
      simp [Double.toInt, htrunc, hr]
    exact cellCoord_of_toInt_none b p W w hto

/-! ## Brush rasterisation: the claims -/

/-- C1: for every brush size of at least 1, every pointer position (negative
coordinates included) and every positive display and buffer size, the block that
`Canvas::drawLineTo` fills has a top-left corner `(xCoord, yCoord)` whose
coordinates are both exact multiples of the brush size. The call is undefined
only when a scaled pointer coordinate does not fit an `int`. -/
theorem blockOrigin_multiple_of_brushSize (s : Canvas) (endPoint : QPoint)
    (hb : 1 ≤ s.brushSize) (hW : 0 < s.width) (hH : 0 < s.height)
    (hw : 0 < s.image.width) (hh : 0 < s.image.height) :
    (∀ s1 : Canvas, drawLineTo s endPoint = some s1 →
        ∃ xCoord yCoord : Int,
          s1.image = s.image.fillRect xCoord yCoord s.brushSize s.brushSize s.brushColor
            s.eraseOn ∧
          s.brushSize ∣ xCoord ∧ s.brushSize ∣ yCoord) ∧
      ∃ tx ty : Int,
        (bufferCoord endPoint.x s.width s.image.width).trunc = some tx ∧
        (bufferCoord endPoint.y s.height s.image.height).trunc = some ty ∧
        (drawLineTo s endPoint = none ↔ ¬ (inIntRange tx = true ∧ inIntRange ty = true)) := by
  obtain ⟨mx, ex, hx⟩ := bufferCoord_finite endPoint.x s.width s.image.width hW hw
  obtain ⟨my, ey, hy⟩ := bufferCoord_finite endPoint.y s.height s.image.height hH hh
  have hcases : ∀ p W w : Int, ∀ v : Int, (bufferCoord p W w).trunc = some v →
      (inIntRange v = true → cellCoord s.brushSize p W w
          = some (s.brushSize * v.tdiv s.brushSize)) ∧
        (¬ inIntRange v = true → cellCoord s.brushSize p W w = none) := by
    intro p W w v hv
    constructor
    · intro hr
      exact cellCoord_of_toInt _ p W w v hb (by simp [Double.toInt, hv, hr])
    · intro hr
      exact cellCoord_of_toInt_none _ p W w (by simp [Double.toInt, hv, hr])
  obtain ⟨tx, htx⟩ : ∃ v, (bufferCoord endPoint.x s.width s.image.width).trunc = some v := by
    rw [hx]
    exact ⟨_, rfl⟩
  obtain ⟨ty, hty⟩ : ∃ v, (bufferCoord endPoint.y s.height s.image.height).trunc = some v := by
    rw [hy]
    exact ⟨_, rfl⟩
  obtain ⟨hxin, hxout⟩ := hcases _ _ _ _ htx
  obtain ⟨hyin, hyout⟩ := hcases _ _ _ _ hty
  refine ⟨fun s1 hs1 => ?_, tx, ty, htx, hty, ?_⟩
  · unfold drawLineTo at hs1
    cases hcx : cellCoord s.brushSize endPoint.x s.width s.image.width with
    | none => simp [hcx] at hs1
    | some xCoord =>
      cases hcy : cellCoord s.brushSize endPoint.y s.height s.image.height with
      | none => simp [hcx, hcy] at hs1
      | some yCoord =>
        rw [hcx, hcy] at hs1
        have hs1 := Option.some.inj hs1
        refine ⟨xCoord, yCoord, by rw [← hs1], ?_, ?_⟩
        · by_cases hr : inIntRange tx = true
          · rw [hxin hr] at hcx
            exact ⟨_, (Option.some.inj hcx).symm⟩
          · rw [hxout hr] at hcx
            exact absurd hcx (by simp)
        · by_cases hr : inIntRange ty = true
          · rw [hyin hr] at hcy
            exact ⟨_, (Option.some.inj hcy).symm⟩
          · rw [hyout hr] at hcy
            exact absurd hcy (by simp)
  · unfold drawLineTo
    constructor
    · intro hnone hboth
      rw [hxin hboth.1, hyin hboth.2] at hnone
      simp at hnone
    · intro hnot
      by_cases hrx : inIntRange tx = true
      · by_cases hry : inIntRange ty = true
        · exact absurd ⟨hrx, hry⟩ hnot
        · rw [hxin hrx, hyout hry]
          rfl
      · rw [hxout hrx]
        rfl

/-- Witness for C1: the pointer at (-37, 235) on `blankCanvas`, block origin
(0, 40). -/
theorem blockOrigin_multiple_of_brushSize_witness :
    (1 ≤ blankCanvas.brushSize ∧ 0 < blankCanvas.width ∧ 0 < blankCanvas.height ∧
        0 < blankCanvas.image.width ∧ 0 < blankCanvas.image.height) ∧
      (∀ s1 : Canvas, drawLineTo blankCanvas ⟨-37, 235⟩ = some s1 →
        ∃ xCoord yCoord : Int,
          s1.image = blankCanvas.image.fillRect xCoord yCoord blankCanvas.brushSize
            blankCanvas.brushSize blankCanvas.brushColor blankCanvas.eraseOn ∧
          blankCanvas.brushSize ∣ xCoord ∧ blankCanvas.brushSize ∣ yCoord) ∧
      (drawLineTo blankCanvas ⟨-37, 235⟩).map (fun s1 => s1.image.fills)
        = some [⟨0, 40, 10, 10, blankCanvas.brushColor, false⟩] :=
  ⟨by decide,
    (blockOrigin_multiple_of_brushSize blankCanvas ⟨-37, 235⟩ (by decide) (by decide)
      (by decide) (by decide) (by decide)).1,
    by decide⟩

/-- C2 (amended): for every brush size `b` of at least 1, positive display and
buffer sizes and every non-negative pointer coordinate, the block origin on that
axis is `b * floor(bufferCoord / b)`, where `bufferCoord` is the double the code
computes for pointer coordinate / (display size / buffer size) (and the origin
is undefined when `floor(bufferCoord)` does not fit an `int`). With `b = 10`, a
100x100 buffer shown at 500x500 and the pointer at (115, 235), which is buffer
point (23, 47), the filled block has origin (20, 40) and size 10x10. -/
theorem blockOrigin_floor_snap :
    (∀ b p W w : Int, 1 ≤ b → 0 < W → 0 < w → 0 ≤ p →
        cellCoord b p W w =
          if inIntRange ⌊(bufferCoord p W w).toRat⌋ = true then
            some (b * ⌊(bufferCoord p W w).toRat / (b : ℚ)⌋)
          else none) ∧
      (bufferCoord 115 500 100).toRat = 23 ∧ (bufferCoord 235 500 100).toRat = 47 ∧
      drawLineTo blankCanvas ⟨115, 235⟩ =
        some { blankCanvas with
          image := blankCanvas.image.fillRect 20 40 10 10 blankCanvas.brushColor false
          mousePos := ⟨115, 235⟩ } := by
  refine ⟨fun b p W w hb hW hw hp => (cellCoord_floor b p W w hb hW hw hp).2, ?_, ?_, by decide⟩
  · have h : bufferCoord 115 500 100 = Double.finite false 6473924464345088 (-48) := by decide
    rw [h]
    norm_num [Double.toRat]
  · have h : bufferCoord 235 500 100 = Double.finite false 6614661952700416 (-47) := by decide
    rw [h]
    norm_num [Double.toRat]

/-- Witness for C2: brush size 10, pointer coordinate 115, display width 500,
buffer width 100. -/
theorem blockOrigin_floor_snap_witness :
    ((1 : Int) ≤ 10 ∧ (0 : Int) < 500 ∧ (0 : Int) < 100 ∧ (0 : Int) ≤ 115) ∧
      cellCoord 10 115 500 100 =
        if inIntRange ⌊(bufferCoord 115 500 100).toRat⌋ = true then
          some (10 * ⌊(bufferCoord 115 500 100).toRat / ((10 : Int) : ℚ)⌋)
        else none :=
  ⟨by decide,
    blockOrigin_floor_snap.1 10 115 500 100 (by decide) (by decide) (by decide) (by decide)⟩

/-- C2 (counterexample): for a negative pointer coordinate the origin is not
`b * floor(bufferCoord / b)`. With `b = 10` and a 100-wide buffer shown 100 wide
(scale factor exactly 1), the pointer coordinate -5 is buffer coordinate -5; the
conversion to `int` and the integer division both round toward zero, so the
origin is `0`, whereas `10 * floor(-5 / 10) = -10`. Moreover the buffer
coordinate is a rounded double: with a 100-wide buffer shown 110 wide the
pointer coordinate 33 is exactly buffer coordinate `33 / (110 / 100) = 30`, but
the double is below 30 and the origin is `20`, not `10 * floor(30 / 10) = 30`. -/
theorem blockOrigin_not_floor :
    (bufferCoord (-5) 100 100).toRat = -5 ∧
      cellCoord 10 (-5) 100 100 = some 0 ∧
      (10 : Int) * ⌊(bufferCoord (-5) 100 100).toRat / ((10 : Int) : ℚ)⌋ = -10 ∧
      cellCoord 10 (-5) 100 100
        ≠ some (10 * ⌊(bufferCoord (-5) 100 100).toRat / ((10 : Int) : ℚ)⌋) ∧
      (33 : ℚ) / ((110 : ℚ) / 100) = 30 ∧
      (bufferCoord 33 110 100).toRat < 30 ∧
      cellCoord 10 33 110 100 = some 20 := by
  have h : bufferCoord (-5) 100 100 = Double.finite true 5629499534213120 (-50) := by decide
  have hval : (bufferCoord (-5) 100 100).toRat = -5 := by
    rw [h]
    norm_num [Double.toRat]
  have hcell : cellCoord 10 (-5) 100 100 = some 0 := by decide
  have hfloor : (10 : Int) * ⌊(bufferCoord (-5) 100 100).toRat / ((10 : Int) : ℚ)⌋ = -10 := by
    rw [hval]
    have : ⌊(-5 : ℚ) / ((10 : Int) : ℚ)⌋ = -1 := by
      rw [Int.floor_eq_iff]
      norm_num
    rw [this]
    norm_num
  have h33 : bufferCoord 33 110 100 = Double.finite false 8444249301319679 (-48) := by decide
  refine ⟨hval, hcell, hfloor, ?_, by norm_num, ?_, by decide⟩
  · rw [hcell, hfloor]
    decide
  · rw [h33]
    norm_num [Double.toRat]

/-- C7 (amended): `Canvas::drawLineTo` does not clamp. When the brush size `b` is
at least 1, the scaled pointer coordinates lie inside the buffer
(`0 <= tx < bufferWidth`, `0 <= ty < bufferHeight`) and `b` divides the buffer
width and height, the filled block lies inside the pixel buffer:
`0 <= cellX`, `cellX + b <= bufferWidth`, `0 <= cellY`, `cellY + b <= bufferHeight`. -/
theorem block_inside_buffer (s : Canvas) (endPoint : QPoint) (tx ty : Int)
    (hb : 1 ≤ s.brushSize)
    (htx : (bufferCoord endPoint.x s.width s.image.width).toInt = some tx)
    (hty : (bufferCoord endPoint.y s.height s.image.height).toInt = some ty)
    (hx0 : 0 ≤ tx) (hx1 : tx < s.image.width) (hy0 : 0 ≤ ty) (hy1 : ty < s.image.height)
    (hdw : s.brushSize ∣ s.image.width) (hdh : s.brushSize ∣ s.image.height) :
    ∃ cellX cellY : Int,
      drawLineTo s endPoint =
        some { s with
          image := s.image.fillRect cellX cellY s.brushSize s.brushSize s.brushColor s.eraseOn
          mousePos := endPoint } ∧
      0 ≤ cellX ∧ cellX + s.brushSize ≤ s.image.width ∧
      0 ≤ cellY ∧ cellY + s.brushSize ≤ s.image.height := by
  have hfit : ∀ t size : Int, 0 ≤ t → t < size → s.brushSize ∣ size →
      0 ≤ s.brushSize * t.tdiv s.brushSize ∧
        s.brushSize * t.tdiv s.brushSize + s.brushSize ≤ size := by
    intro t size h0 h1 hdvd
    obtain ⟨k, rfl⟩ := hdvd
    obtain ⟨-, -, hlow, hle, -⟩ := (tdiv_bounds t s.brushSize hb).1 h0
    refine ⟨hlow, ?_⟩
    have hlt : s.brushSize * t.tdiv s.brushSize < s.brushSize * k := by omega
    have hq : t.tdiv s.brushSize < k := lt_of_mul_lt_mul_left hlt (by omega)
    have hstep : s.brushSize * (t.tdiv s.brushSize + 1) ≤ s.brushSize * k :=
      mul_le_mul_of_nonneg_left (by omega) (by omega)
    rw [mul_add, mul_one] at hstep
    exact hstep
  obtain ⟨hxa, hxb⟩ := hfit tx _ hx0 hx1 hdw
  obtain ⟨hya, hyb⟩ := hfit ty _ hy0 hy1 hdh
  refine ⟨s.brushSize * tx.tdiv s.brushSize, s.brushSize * ty.tdiv s.brushSize, ?_,
    hxa, hxb, hya, hyb⟩
  unfold drawLineTo
  rw [cellCoord_of_toInt _ _ _ _ tx hb htx, cellCoord_of_toInt _ _ _ _ ty hb hty]
  rfl

/-- Witness for C7: the pointer at (115, 235) on `blankCanvas`, buffer point
(23, 47). -/
theorem block_inside_buffer_witness :
    (1 ≤ blankCanvas.brushSize ∧
        (bufferCoord 115 blankCanvas.width blankCanvas.image.width).toInt = some 23 ∧
        (bufferCoord 235 blankCanvas.height blankCanvas.image.height).toInt = some 47 ∧
        (0 : Int) ≤ 23 ∧ 23 < blankCanvas.image.width ∧
        (0 : Int) ≤ 47 ∧ 47 < blankCanvas.image.height ∧
        blankCanvas.brushSize ∣ blankCanvas.image.width ∧
        blankCanvas.brushSize ∣ blankCanvas.image.height) ∧
      ∃ cellX cellY : Int,
        drawLineTo blankCanvas ⟨115, 235⟩ =
          some { blankCanvas with
            image := blankCanvas.image.fillRect cellX cellY blankCanvas.brushSize
              blankCanvas.brushSize blankCanvas.brushColor blankCanvas.eraseOn
            mousePos := ⟨115, 235⟩ } ∧
        0 ≤ cellX ∧ cellX + blankCanvas.brushSize ≤ blankCanvas.image.width ∧
        0 ≤ cellY ∧ cellY + blankCanvas.brushSize ≤ blankCanvas.image.height :=
  ⟨⟨by decide, by decide, by decide, by decide, by decide, by decide, by decide,
      ⟨10, by decide⟩, ⟨10, by decide⟩⟩,
    block_inside_buffer blankCanvas ⟨115, 235⟩ 23 47 (by decide) (by decide) (by decide)
      (by decide) (by decide) (by decide) (by decide) ⟨10, by decide⟩ ⟨10, by decide⟩⟩

/-- C7 (counterexample): on the 100x100 buffer shown at 500x500 with brush size
10, a pointer at (520, 50) fills the block at `cellX = 100`, which ends at 110,
beyond the buffer width 100; a pointer at (-60, 50) fills the block at
`cellX = -10`, left of the buffer; and with brush size 30 a pointer at (475, 50),
inside the buffer, fills the block at `cellX = 90`, which ends at 120. No
coordinate is clamped. -/
theorem block_outside_buffer :
    (drawLineTo blankCanvas ⟨520, 50⟩).map (fun s1 => s1.image.fills)
        = some [⟨100, 10, 10, 10, blankCanvas.brushColor, false⟩] ∧
      ¬ ((100 : Int) + 10 ≤ blankCanvas.image.width) ∧
      (drawLineTo blankCanvas ⟨-60, 50⟩).map (fun s1 => s1.image.fills)
        = some [⟨-10, 10, 10, 10, blankCanvas.brushColor, false⟩] ∧
      ¬ ((0 : Int) ≤ -10) ∧
      (drawLineTo (brushSizeChanged blankCanvas 30) ⟨475, 50⟩).map (fun s1 => s1.image.fills)
        = some [⟨90, 0, 30, 30, blankCanvas.brushColor, false⟩] ∧
      ¬ ((90 : Int) + 30 ≤ blankCanvas.image.width) := by
  decide

end SpriteEditor
